import Mathlib

/-!
Verification of the batch-aware embedding cache of the captioning-endpoint
repository (`src/open_clip_vit_b32/feature_extraction_server/models/open_clip_vit_b32.py`).

The embedding models:
* `LRUCache` — the Python `LRUCache` class.  Its `self.cache` is a Python
  `OrderedDict`, modelled as an association list `List (K × V)` whose head is
  the least-recently-used entry (the entry `popitem(last=False)` would remove)
  and whose last element is the most-recently-used entry (assignment
  `self.cache[key] = value` appends at the end).
* `odPop` — `OrderedDict.pop(key)`: removes the entry for `key` wherever it
  sits, returning its value; `OrderedDict` keys are unique, so removing the
  first occurrence is exact.
* `cache_get` / `cache_set` — the two `LRUCache` methods.  `cache_set` can
  raise an unhandled `KeyError` (`popitem` on an empty dict when
  `maxsize = 0`), so it returns `Except Unit`, with `.error ()` standing for
  an uncaught Python exception.
* `splitPhase` / `fillPhase` / `batchedEmbedding` — the body of
  `batched_text_embedding` and `batched_image_embedding`.  The two Python
  methods are word-for-word the same algorithm except that the image variant
  derives the cache key of an item with `serialize_image` while the text
  variant uses the text itself as key; `batchedEmbedding` takes that key
  derivation as the parameter `ser`, and the two methods are its instances
  `ser := fun t => t` (text) and `ser := serialize_image` (image).  The
  external model inference (tokenizer + encoder + normalize, lines 98–103 and
  129–138 of the source) is the opaque parameter
  `embed : List I → Except Unit (List V)`; `.error ()` is an inference
  failure propagating out of the method.
-/

set_option autoImplicit false
set_option linter.unusedSectionVars false

namespace CaptioningEndpoint

/-- Model of the `LRUCache` class: `cache` is the `OrderedDict` contents in
recency order (least recently used first), `maxsize` the fixed capacity. -/
structure LRUCache (K V : Type) where
  cache : List (K × V)
  maxsize : Nat
deriving DecidableEq

/-- Model of `OrderedDict.pop(key)`: remove the entry for `key`, returning
`(some value, remaining entries)` on success and `(none, unchanged)` when the
key is absent (the `KeyError` branch, which both call sites catch). -/
def odPop {K V : Type} [DecidableEq K] : List (K × V) → K → Option V × List (K × V)
  | [], _ => (none, [])
  | (k0, v) :: rest, k =>
    if k0 = k then (some v, rest)
    else
      let r := odPop rest k
      (r.1, (k0, v) :: r.2)

namespace LRUCache

/-- Model of `LRUCache.__init__(maxsize)`: an empty store with the given
capacity (the Python default is `maxsize=100`). -/
def init (K V : Type) (maxsize : Nat) : LRUCache K V := ⟨[], maxsize⟩

/-- Model of `LRUCache.cache_get`: `pop` the key; on success re-insert at the
most-recently-used end and return the value, on `KeyError` return `None`
leaving the store untouched. -/
def cache_get {K V : Type} [DecidableEq K] (c : LRUCache K V) (k : K) :
    Option V × LRUCache K V :=
  match odPop c.cache k with
  | (some v, rest) => (some v, ⟨rest ++ [(k, v)], c.maxsize⟩)
  | (none, _) => (none, c)

/-- Model of `LRUCache.cache_set`: `pop` the key; on `KeyError` (key absent),
if the store is at capacity, `popitem(last=False)` evicts the oldest entry —
raising an uncaught `KeyError` (modelled `.error ()`) when the dict is empty,
which happens exactly when `maxsize = 0`; finally insert the new pair at the
most-recently-used end. -/
def cache_set {K V : Type} [DecidableEq K] (c : LRUCache K V) (k : K) (v : V) :
    Except Unit (LRUCache K V) :=
  match odPop c.cache k with
  | (some _, rest) => .ok ⟨rest ++ [(k, v)], c.maxsize⟩
  | (none, _) =>
    if c.maxsize ≤ c.cache.length then
      match c.cache with
      | [] => .error ()
      | _ :: rest => .ok ⟨rest ++ [(k, v)], c.maxsize⟩
    else .ok ⟨c.cache ++ [(k, v)], c.maxsize⟩

end LRUCache

/-- A client-visible cache operation: one `cache_get` or one `cache_set`
call. -/
inductive CacheOp (K V : Type) where
  | get (k : K)
  | set (k : K) (v : V)

/-- Run one operation on the cache, keeping the resulting store (the value
returned by `cache_get` is irrelevant for state evolution). -/
def runOp {K V : Type} [DecidableEq K] (c : LRUCache K V) :
    CacheOp K V → Except Unit (LRUCache K V)
  | .get k => .ok (c.cache_get k).2
  | .set k v => c.cache_set k v

/-- Run a sequence of operations left to right, stopping at the first raised
exception. -/
def runOps {K V : Type} [DecidableEq K] (c : LRUCache K V) :
    List (CacheOp K V) → Except Unit (LRUCache K V)
  | [] => .ok c
  | op :: ops =>
    match runOp c op with
    | .ok c1 => runOps c1 ops
    | .error e => .error e

/-- Result of the first loop of `batched_text_embedding` /
`batched_image_embedding`: the cache after all `cache_get` calls, the
`results` list (`None` in the miss slots), and the parallel
`uncached_texts/uncached_images` and `uncached_indices` lists. -/
structure SplitOut (K V I : Type) where
  cache : LRUCache K V
  results : List (Option V)
  uncached : List I
  indices : List Nat

/-- Model of the first loop (`for idx, t in enumerate(text)` resp.
`for idx, img in enumerate(image)`): query the cache with the item's key
(`ser item`); on a hit the slot `results[idx]` receives the cached value, on
a miss the item and its index are appended to the uncached lists.  The Python
code preallocates `results = [None] * len(items)` and writes slot `idx` in
iteration `idx`; since the loop visits the indices `idx, idx+1, ...` in
order, building `results` positionally is the same list. -/
def splitPhase {K V I : Type} [DecidableEq K] (ser : I → K) (c : LRUCache K V)
    (idx : Nat) : List I → SplitOut K V I
  | [] => ⟨c, [], [], []⟩
  | x :: xs =>
    match c.cache_get (ser x) with
    | (some v, c1) =>
      let r := splitPhase ser c1 (idx + 1) xs
      ⟨r.cache, some v :: r.results, r.uncached, r.indices⟩
    | (none, _) =>
      let r := splitPhase ser c (idx + 1) xs
      ⟨r.cache, none :: r.results, x :: r.uncached, idx :: r.indices⟩

/-- Model of the second loop (`for i, idx in enumerate(uncached_indices)`):
take the computed feature `features[i]` (raising `IndexError` — `.error ()` —
when the feature list is exhausted before the index list), look up the
original item `items[idx]`, store the feature under its key with `cache_set`,
and write slot `idx` of `results`.  Features beyond the length of
`uncached_indices` are never read, exactly as in the Python loop. -/
def fillPhase {K V I : Type} [DecidableEq K] (ser : I → K) (items : List I)
    (c : LRUCache K V) (results : List (Option V)) :
    List Nat → List V → Except Unit (LRUCache K V × List (Option V))
  | [], _ => .ok (c, results)
  | _ :: _, [] => .error ()
  | idx :: idxs, f :: fs =>
    match items[idx]? with
    | none => .error ()
    | some x =>
      match c.cache_set (ser x) f with
      | .error e => .error e
      | .ok c1 => fillPhase ser items c1 (results.set idx (some f)) idxs fs

/-- Common body of `batched_text_embedding` and `batched_image_embedding`:
split the batch into cached hits and misses, and when the miss list is
nonempty run the external computation `embed` on it and fill the miss slots
(writing each computed value back to the cache).  The returned list is the
`results` value of `{"embedding": results}`. -/
def batchedEmbedding {K V I : Type} [DecidableEq K] (ser : I → K)
    (c : LRUCache K V) (embed : List I → Except Unit (List V))
    (items : List I) : Except Unit (LRUCache K V × List (Option V)) :=
  let o := splitPhase ser c 0 items
  if o.uncached.isEmpty then .ok (o.cache, o.results)
  else
    match embed o.uncached with
    | .error e => .error e
    | .ok features => fillPhase ser items o.cache o.results o.indices features

/-- Model of `OpenClipVitB32.batched_text_embedding`: the cache key of a text
item is the text itself. -/
def batched_text_embedding {K V : Type} [DecidableEq K] (c : LRUCache K V)
    (embed : List K → Except Unit (List V)) (text : List K) :
    Except Unit (LRUCache K V × List (Option V)) :=
  batchedEmbedding (fun t => t) c embed text

/-- Model of `OpenClipVitB32.batched_image_embedding`: the cache key of an
image is `serialize_image(image)` (the MD5 digest of its pixel bytes), an
opaque function `I → K` here. -/
def batched_image_embedding {K V I : Type} [DecidableEq K]
    (serialize_image : I → K) (c : LRUCache K V)
    (embed : List I → Except Unit (List V)) (image : List I) :
    Except Unit (LRUCache K V × List (Option V)) :=
  batchedEmbedding serialize_image c embed image

/-- Keys currently stored, in recency order. -/
def keysOf {K V : Type} (c : LRUCache K V) : List K := c.cache.map Prod.fst

/-- The `OrderedDict` key-uniqueness invariant: every run of the real class
satisfies it, since a Python dict cannot hold a key twice. -/
def KeysNodup {K V : Type} (c : LRUCache K V) : Prop := (keysOf c).Nodup

/-- The cache agrees with the (deterministic) embedding function `Ek` on
every stored key. -/
def Coherent {K V : Type} (Ek : K → V) (c : LRUCache K V) : Prop :=
  ∀ p ∈ c.cache, p.2 = Ek p.1

/-- Insert a list of key/value pairs with consecutive `cache_set` calls,
left to right, stopping at the first raised exception. -/
def insertAll {K V : Type} [DecidableEq K] (c : LRUCache K V) :
    List (K × V) → Except Unit (LRUCache K V)
  | [] => .ok c
  | (k, v) :: kvs =>
    match c.cache_set k v with
    | .ok c1 => insertAll c1 kvs
    | .error e => .error e

section OdPopLemmas

variable {K V : Type} [DecidableEq K]

theorem odPop_not_mem {l : List (K × V)} {k : K} (h : k ∉ l.map Prod.fst) :
    odPop l k = (none, l) := by
  induction l with
  | nil => rfl
  | cons p rest ih =>
    obtain ⟨k0, v0⟩ := p
    simp only [List.map_cons, List.mem_cons, not_or] at h
    simp only [odPop, if_neg (fun hk : k0 = k => h.1 hk.symm), ih h.2]

theorem odPop_none {l l2 : List (K × V)} {k : K} (h : odPop l k = (none, l2)) :
    l2 = l ∧ k ∉ l.map Prod.fst := by
  induction l generalizing l2 with
  | nil =>
    simp only [odPop, Prod.mk.injEq] at h
    simp [h.2.symm]
  | cons p rest ih =>
    obtain ⟨k0, v0⟩ := p
    by_cases hk : k0 = k
    · simp [odPop, hk] at h
    · simp only [odPop, if_neg hk, Prod.mk.injEq] at h
      obtain ⟨h1, h2⟩ := h
      have hih := ih (Prod.ext h1 rfl)
      simp only [← h2, List.map_cons, List.mem_cons, not_or]
      exact ⟨congrArg (List.cons (k0, v0)) hih.1, fun hkk => hk hkk.symm, hih.2⟩

theorem odPop_some_perm {l rest : List (K × V)} {k : K} {v : V}
    (h : odPop l k = (some v, rest)) : l.Perm ((k, v) :: rest) := by
  induction l generalizing rest with
  | nil => simp [odPop] at h
  | cons p l ih =>
    obtain ⟨k0, v0⟩ := p
    by_cases hk : k0 = k
    · subst hk
      have he : odPop ((k0, v0) :: l) k0 = (some v0, l) := by simp [odPop]
      rw [he, Prod.mk.injEq, Option.some.injEq] at h
      rw [h.1, h.2]
    · simp only [odPop, if_neg hk, Prod.mk.injEq] at h
      obtain ⟨h1, h2⟩ := h
      have hp := ih (Prod.ext h1 rfl)
      subst h2
      exact (hp.cons (k0, v0)).trans (List.Perm.swap _ _ _)

theorem odPop_mem {l : List (K × V)} {k : K} (h : k ∈ l.map Prod.fst) :
    ∃ v0 rest, odPop l k = (some v0, rest) := by
  induction l with
  | nil => simp at h
  | cons p rest ih =>
    obtain ⟨k0, v0⟩ := p
    by_cases hk : k0 = k
    · subst hk
      exact ⟨v0, rest, by simp [odPop]⟩
    · simp only [List.map_cons, List.mem_cons] at h
      rcases h with h | h
      · exact absurd h.symm hk
      · obtain ⟨v1, r, hr⟩ := ih h
        exact ⟨v1, (k0, v0) :: r, by simp [odPop, if_neg hk, hr]⟩

theorem odPop_mem_nodup {l : List (K × V)} {k : K} {v : V}
    (hmem : (k, v) ∈ l) (hnd : (l.map Prod.fst).Nodup) :
    ∃ rest, odPop l k = (some v, rest) := by
  induction l with
  | nil => simp at hmem
  | cons p rest ih =>
    obtain ⟨k0, v0⟩ := p
    simp only [List.map_cons, List.nodup_cons] at hnd
    rcases List.mem_cons.mp hmem with heq | htail
    · cases heq
      exact ⟨rest, by simp [odPop]⟩
    · by_cases hk : k0 = k
      · exact absurd (hk ▸ List.mem_map_of_mem Prod.fst htail) hnd.1
      · obtain ⟨r, hr⟩ := ih htail hnd.2
        exact ⟨(k0, v0) :: r, by simp [odPop, if_neg hk, hr]⟩

end OdPopLemmas

section CacheLemmas

variable {K V : Type} [DecidableEq K]

theorem keysOf_eq (c : LRUCache K V) : keysOf c = c.cache.map Prod.fst := rfl

theorem cache_get_snd_perm (c : LRUCache K V) (k : K) :
    ((c.cache_get k).2).cache.Perm c.cache := by
  rcases h : odPop c.cache k with ⟨r, rest⟩
  cases r with
  | none => simp [LRUCache.cache_get, h]
  | some v =>
    simp only [LRUCache.cache_get, h]
    exact (List.perm_append_singleton _ _).trans (odPop_some_perm h).symm

theorem cache_get_snd_maxsize (c : LRUCache K V) (k : K) :
    ((c.cache_get k).2).maxsize = c.maxsize := by
  rcases h : odPop c.cache k with ⟨r, rest⟩
  cases r <;> simp [LRUCache.cache_get, h]

theorem cache_get_not_mem {c : LRUCache K V} {k : K} (h : k ∉ keysOf c) :
    c.cache_get k = (none, c) := by
  rw [keysOf_eq] at h
  simp [LRUCache.cache_get, odPop_not_mem h]

theorem cache_get_fst_some {c : LRUCache K V} {k : K} {v : V}
    (h : (c.cache_get k).1 = some v) : (k, v) ∈ c.cache := by
  rcases ho : odPop c.cache k with ⟨r, rest⟩
  cases r with
  | none => simp [LRUCache.cache_get, ho] at h
  | some v0 =>
    simp only [LRUCache.cache_get, ho, Option.some.injEq] at h
    subst h
    exact (odPop_some_perm ho).symm.subset (List.mem_cons_self _ _)

theorem cache_get_fst_none {c : LRUCache K V} {k : K}
    (h : (c.cache_get k).1 = none) : (c.cache_get k).2 = c := by
  rcases ho : odPop c.cache k with ⟨r, rest⟩
  cases r with
  | none => simp [LRUCache.cache_get, ho]
  | some v0 => simp [LRUCache.cache_get, ho] at h

theorem cache_get_mem_nodup {c : LRUCache K V} {k : K} {v : V}
    (hmem : (k, v) ∈ c.cache) (hnd : KeysNodup c) :
    (c.cache_get k).1 = some v := by
  obtain ⟨rest, hr⟩ := odPop_mem_nodup hmem hnd
  simp [LRUCache.cache_get, hr]

theorem cache_get_keysNodup {c : LRUCache K V} (k : K) (hnd : KeysNodup c) :
    KeysNodup (c.cache_get k).2 :=
  (((cache_get_snd_perm c k).map Prod.fst).nodup_iff).mpr hnd

theorem coherent_of_perm {Ek : K → V} {c c2 : LRUCache K V}
    (hp : c2.cache.Perm c.cache) (hc : Coherent Ek c) : Coherent Ek c2 :=
  fun p hpmem => hc p (hp.subset hpmem)

theorem cache_get_coherent {Ek : K → V} {c : LRUCache K V} (k : K)
    (hc : Coherent Ek c) : Coherent Ek (c.cache_get k).2 :=
  coherent_of_perm (cache_get_snd_perm c k) hc

theorem cache_get_some_coherent {Ek : K → V} {c : LRUCache K V} {k : K} {v : V}
    (hc : Coherent Ek c) (h : (c.cache_get k).1 = some v) : v = Ek k :=
  hc (k, v) (cache_get_fst_some h)

theorem cache_set_hit {c : LRUCache K V} {k : K} {v0 : V} {rest : List (K × V)}
    (h : odPop c.cache k = (some v0, rest)) (v : V) :
    c.cache_set k v = .ok ⟨rest ++ [(k, v)], c.maxsize⟩ := by
  simp [LRUCache.cache_set, h]

theorem cache_set_fresh_room {c : LRUCache K V} {k : K}
    (hk : k ∉ keysOf c) (hlen : c.cache.length < c.maxsize) (v : V) :
    c.cache_set k v = .ok ⟨c.cache ++ [(k, v)], c.maxsize⟩ := by
  rw [keysOf_eq] at hk
  simp [LRUCache.cache_set, odPop_not_mem hk, Nat.not_le.mpr hlen]

theorem cache_set_fresh_full {c : LRUCache K V} {k : K} {p : K × V}
    {rest : List (K × V)} (hk : k ∉ keysOf c)
    (hlen : c.maxsize ≤ c.cache.length) (hc : c.cache = p :: rest) (v : V) :
    c.cache_set k v = .ok ⟨rest ++ [(k, v)], c.maxsize⟩ := by
  rw [keysOf_eq] at hk
  have ho : odPop c.cache k = (none, c.cache) := odPop_not_mem hk
  simp only [LRUCache.cache_set, ho, hlen, if_true]
  rw [hc]

theorem cache_set_ok_cases {c c2 : LRUCache K V} {k : K} {v : V}
    (h : c.cache_set k v = .ok c2) :
    c2.maxsize = c.maxsize ∧
    ((∃ v0 rest, odPop c.cache k = (some v0, rest) ∧
        c2.cache = rest ++ [(k, v)]) ∨
     (k ∉ keysOf c ∧ c.maxsize ≤ c.cache.length ∧
        ∃ p rest, c.cache = p :: rest ∧ c2.cache = rest ++ [(k, v)]) ∨
     (k ∉ keysOf c ∧ c.cache.length < c.maxsize ∧
        c2.cache = c.cache ++ [(k, v)])) := by
  by_cases hmem : k ∈ keysOf c
  · rw [keysOf_eq] at hmem
    obtain ⟨v0, rest, ho⟩ := odPop_mem hmem
    rw [cache_set_hit ho v, Except.ok.injEq] at h
    subst h
    exact ⟨rfl, .inl ⟨v0, rest, ho, rfl⟩⟩
  · by_cases hlen : c.maxsize ≤ c.cache.length
    · obtain ⟨p, rest2, hc⟩ : ∃ p rest2, c.cache = p :: rest2 := by
        rcases hcc : c.cache with _ | ⟨p, rest2⟩
        · exfalso
          rw [hcc] at hlen
          have hms : c.maxsize = 0 := by simpa using hlen
          simp [LRUCache.cache_set, hcc, odPop, hms] at h
        · exact ⟨p, rest2, rfl⟩
      rw [cache_set_fresh_full hmem hlen hc v, Except.ok.injEq] at h
      subst h
      exact ⟨rfl, .inr (.inl ⟨hmem, hlen, p, rest2, hc, rfl⟩)⟩
    · rw [cache_set_fresh_room hmem (Nat.not_le.mp hlen) v, Except.ok.injEq] at h
      subst h
      exact ⟨rfl, .inr (.inr ⟨hmem, Nat.not_le.mp hlen, rfl⟩)⟩

theorem cache_set_maxsize {c c2 : LRUCache K V} {k : K} {v : V}
    (h : c.cache_set k v = .ok c2) : c2.maxsize = c.maxsize :=
  (cache_set_ok_cases h).1

theorem cache_set_mem {c c2 : LRUCache K V} {k : K} {v : V}
    (h : c.cache_set k v = .ok c2) : (k, v) ∈ c2.cache := by
  rcases (cache_set_ok_cases h).2 with ⟨v0, rest, _, hc⟩ |
    ⟨_, _, p, rest, _, hc⟩ | ⟨_, _, hc⟩ <;>
    simp [hc]

theorem cache_set_subset {c c2 : LRUCache K V} {k : K} {v : V}
    (h : c.cache_set k v = .ok c2) :
    ∀ p ∈ c2.cache, p = (k, v) ∨ p ∈ c.cache := by
  intro p hp
  rcases (cache_set_ok_cases h).2 with ⟨v0, rest, ho, hc⟩ |
    ⟨_, _, q, rest, hq, hc⟩ | ⟨_, _, hc⟩
  · rw [hc, List.mem_append] at hp
    rcases hp with hp | hp
    · exact .inr ((odPop_some_perm ho).symm.subset (List.mem_cons_of_mem _ hp))
    · simp at hp
      exact .inl hp
  · rw [hc, List.mem_append] at hp
    rcases hp with hp | hp
    · exact .inr (hq ▸ List.mem_cons_of_mem _ hp)
    · simp at hp
      exact .inl hp
  · rw [hc, List.mem_append] at hp
    rcases hp with hp | hp
    · exact .inr hp
    · simp at hp
      exact .inl hp

theorem cache_set_length_le {c c2 : LRUCache K V} {k : K} {v : V}
    (h : c.cache_set k v = .ok c2) (hle : c.cache.length ≤ c.maxsize) :
    c2.cache.length ≤ c.maxsize := by
  rcases (cache_set_ok_cases h).2 with ⟨v0, rest, ho, hc⟩ |
    ⟨_, hlen, p, rest, hq, hc⟩ | ⟨_, hlen, hc⟩
  · have := (odPop_some_perm ho).length_eq
    simp only [List.length_cons] at this
    simp only [hc, List.length_append, List.length_cons, List.length_nil]
    omega
  · have : c.cache.length = rest.length + 1 := by rw [hq]; rfl
    simp only [hc, List.length_append, List.length_cons, List.length_nil]
    omega
  · simp only [hc, List.length_append, List.length_cons, List.length_nil]
    omega

theorem cache_set_keysNodup {c c2 : LRUCache K V} {k : K} {v : V}
    (hnd : KeysNodup c) (h : c.cache_set k v = .ok c2) : KeysNodup c2 := by
  have hnd0 : (c.cache.map Prod.fst).Nodup := hnd
  have base : ∀ pre : List (K × V), k ∉ pre.map Prod.fst →
      (pre.map Prod.fst).Nodup → ((pre ++ [(k, v)]).map Prod.fst).Nodup := by
    intro pre hk hnd2
    refine (((List.perm_append_singleton (k, v) pre).map Prod.fst).nodup_iff).mpr ?_
    simp only [List.map_cons, List.nodup_cons]
    exact ⟨hk, hnd2⟩
  show (c2.cache.map Prod.fst).Nodup
  rcases (cache_set_ok_cases h).2 with ⟨v0, rest, ho, hc⟩ |
    ⟨hk, _, p, rest, hq, hc⟩ | ⟨hk, _, hc⟩
  · have h2 := ((odPop_some_perm ho).map Prod.fst).nodup_iff.mp hnd0
    simp only [List.map_cons, List.nodup_cons] at h2
    rw [hc]
    exact base rest h2.1 h2.2
  · rw [hq, List.map_cons, List.nodup_cons] at hnd0
    rw [keysOf_eq, hq] at hk
    simp only [List.map_cons, List.mem_cons, not_or] at hk
    rw [hc]
    exact base rest hk.2 hnd0.2
  · rw [keysOf_eq] at hk
    rw [hc]
    exact base c.cache hk hnd0

theorem cache_set_total {c : LRUCache K V} (k : K) (v : V)
    (hms : 1 ≤ c.maxsize) : ∃ c2, c.cache_set k v = .ok c2 := by
  by_cases hmem : k ∈ keysOf c
  · rw [keysOf_eq] at hmem
    obtain ⟨v0, rest, ho⟩ := odPop_mem hmem
    exact ⟨_, cache_set_hit ho v⟩
  · by_cases hlen : c.maxsize ≤ c.cache.length
    · obtain ⟨p, rest, hc⟩ : ∃ p rest, c.cache = p :: rest := by
        cases hcc : c.cache with
        | nil =>
          rw [hcc] at hlen
          simp at hlen
          omega
        | cons p rest => exact ⟨p, rest, rfl⟩
      exact ⟨_, cache_set_fresh_full hmem hlen hc v⟩
    · exact ⟨_, cache_set_fresh_room hmem (Nat.not_le.mp hlen) v⟩

theorem cache_set_coherent {Ek : K → V} {c c2 : LRUCache K V} {k : K}
    (hc : Coherent Ek c) (h : c.cache_set k (Ek k) = .ok c2) :
    Coherent Ek c2 := by
  intro p hp
  rcases cache_set_subset h p hp with hp2 | hp2
  · rw [hp2]
  · exact hc p hp2

end CacheLemmas

section RunLemmas

variable {K V : Type} [DecidableEq K]

theorem runOp_invariant {c c2 : LRUCache K V} {op : CacheOp K V}
    (h : runOp c op = .ok c2) (hle : c.cache.length ≤ c.maxsize) :
    c2.cache.length ≤ c2.maxsize ∧ c2.maxsize = c.maxsize := by
  cases op with
  | get k =>
    simp only [runOp, Except.ok.injEq] at h
    subst h
    refine ⟨?_, cache_get_snd_maxsize c k⟩
    rw [cache_get_snd_maxsize, (cache_get_snd_perm c k).length_eq]
    exact hle
  | set k v =>
    simp only [runOp] at h
    have hms := cache_set_maxsize h
    have hlen := cache_set_length_le h hle
    rw [hms]
    exact ⟨hlen, rfl⟩

theorem runOps_invariant {ops : List (CacheOp K V)} {c c2 : LRUCache K V}
    (h : runOps c ops = .ok c2) (hle : c.cache.length ≤ c.maxsize) :
    c2.cache.length ≤ c2.maxsize ∧ c2.maxsize = c.maxsize := by
  induction ops generalizing c with
  | nil =>
    simp only [runOps, Except.ok.injEq] at h
    subst h
    exact ⟨hle, rfl⟩
  | cons op ops ih =>
    cases hop : runOp c op with
    | error e =>
      simp only [runOps, hop] at h
      exact Except.noConfusion h
    | ok c1 =>
      simp only [runOps, hop] at h
      have h1 := runOp_invariant hop hle
      have h2 := ih h (h1.2 ▸ h1.1)
      exact ⟨h2.1, h2.2.trans h1.2⟩

theorem insertAll_split {a b : List (K × V)} {c c1 : LRUCache K V}
    (h : insertAll c a = .ok c1) : insertAll c (a ++ b) = insertAll c1 b := by
  induction a generalizing c with
  | nil =>
    simp only [insertAll, Except.ok.injEq] at h
    subst h
    rfl
  | cons kv a ih =>
    obtain ⟨k, v⟩ := kv
    cases hset : c.cache_set k v with
    | error e =>
      simp only [insertAll, hset] at h
      exact Except.noConfusion h
    | ok cmid =>
      simp only [insertAll, hset] at h ⊢
      exact ih h

theorem insertAll_fresh {kvs : List (K × V)} {c : LRUCache K V}
    (hnd : (kvs.map Prod.fst).Nodup)
    (hdisj : ∀ k ∈ kvs.map Prod.fst, k ∉ keysOf c)
    (hlen : c.cache.length + kvs.length ≤ c.maxsize) :
    insertAll c kvs = .ok ⟨c.cache ++ kvs, c.maxsize⟩ := by
  induction kvs generalizing c with
  | nil =>
    simp only [insertAll, List.append_nil]
  | cons kv kvs ih =>
    obtain ⟨k, v⟩ := kv
    simp only [List.map_cons, List.nodup_cons] at hnd
    have hk : k ∉ keysOf c := hdisj k (by simp)
    have hroom : c.cache.length < c.maxsize := by
      simp only [List.length_cons] at hlen
      omega
    simp only [insertAll, cache_set_fresh_room hk hroom v]
    have := ih (c := ⟨c.cache ++ [(k, v)], c.maxsize⟩) hnd.2 ?disj ?len
    · rw [this]
      simp
    case disj =>
      intro k1 hk1
      rw [keysOf_eq]
      simp only [List.map_append, List.map_cons, List.map_nil, List.mem_append,
        List.mem_singleton, not_or]
      refine ⟨fun hmem => (hdisj k1 (by simp [hk1])) ?_, fun heq => hnd.1 (heq ▸ hk1)⟩
      rw [keysOf_eq]
      exact hmem
    case len =>
      simp only [List.length_append, List.length_cons, List.length_nil]
      simp only [List.length_cons] at hlen
      omega

end RunLemmas

/-- C2: for every LRUCache constructed with capacity `maxsize` and every
finite sequence of `cache_set` and `cache_get` operations starting from the
empty store, after each operation completes (modelled: after every
successfully completed operation sequence — every prefix of a sequence being
itself a sequence) the number of stored entries is at most `maxsize`. -/
theorem C2_capacity_invariant {K V : Type} [DecidableEq K] (maxsize : Nat)
    (ops : List (CacheOp K V)) (c2 : LRUCache K V)
    (h : runOps (LRUCache.init K V maxsize) ops = .ok c2) :
    c2.cache.length ≤ maxsize := by
  have hinv := runOps_invariant h (by simp [LRUCache.init])
  have hms : c2.maxsize = maxsize := hinv.2
  rw [← hms]
  exact hinv.1

/-- Witness for C2 at a concrete run: capacity 2, three inserts and a get;
the resulting store holds 2 ≤ 2 entries. -/
theorem C2_capacity_invariant_witness :
    ({ cache := [(2, 20), (3, 30)], maxsize := 2 } : LRUCache Nat Nat).cache.length ≤ 2 :=
  C2_capacity_invariant 2
    [CacheOp.set 1 10, CacheOp.set 2 20, CacheOp.set 3 30, CacheOp.get 1]
    ⟨[(2, 20), (3, 30)], 2⟩ (by rfl)

/-- C3: for capacity C ≥ 1 and C+1 pairwise-distinct keys inserted into an
initially empty LRUCache in order with no intervening `cache_get`, the last
insertion evicts exactly the first key, leaving the remaining C keys (with
their values, in insertion order): the final store is the tail of the
inserted list. -/
theorem C3_eviction_order {K V : Type} [DecidableEq K] (C : Nat) (hC : 1 ≤ C)
    (kvs : List (K × V)) (hlen : kvs.length = C + 1)
    (hnd : (kvs.map Prod.fst).Nodup) :
    insertAll (LRUCache.init K V C) kvs = .ok ⟨kvs.tail, C⟩ := by
  obtain ⟨p, hdrop⟩ : ∃ p, kvs.drop C = [p] := by
    have : (kvs.drop C).length = 1 := by
      rw [List.length_drop, hlen]
      omega
    exact List.length_eq_one.mp this
  have hsplitkvs : kvs.take C ++ [p] = kvs := by
    rw [← hdrop]
    exact List.take_append_drop C kvs
  have hndA : ((kvs.take C).map Prod.fst).Nodup :=
    ((kvs.take_sublist C).map Prod.fst).nodup hnd
  have hlenA : (kvs.take C).length = C := by
    rw [List.length_take, hlen]
    omega
  have hA : insertAll (LRUCache.init K V C) (kvs.take C) =
      .ok ⟨kvs.take C, C⟩ := by
    have := insertAll_fresh (c := LRUCache.init K V C) hndA
      (by intro k _; simp [keysOf_eq, LRUCache.init])
      (by simp [LRUCache.init, hlenA])
    simpa [LRUCache.init] using this
  have hndfull : ((kvs.take C ++ [p]).map Prod.fst).Nodup := by
    rw [hsplitkvs]
    exact hnd
  have hpnot : p.1 ∉ keysOf (⟨kvs.take C, C⟩ : LRUCache K V) := by
    rw [keysOf_eq]
    have h2 : (p.1 :: (kvs.take C).map Prod.fst).Nodup := by
      refine (List.perm_append_singleton _ _).nodup_iff.mp ?_
      simpa using hndfull
    exact (List.nodup_cons.mp h2).1
  obtain ⟨q, rest, hc⟩ : ∃ q rest, kvs.take C = q :: rest := by
    cases hq : kvs.take C with
    | nil =>
      rw [hq] at hlenA
      simp at hlenA
      omega
    | cons q rest => exact ⟨q, rest, rfl⟩
  obtain ⟨pk, pv⟩ := p
  have hfull : C ≤ (kvs.take C).length := by omega
  have hset := cache_set_fresh_full (c := ⟨kvs.take C, C⟩) hpnot hfull hc pv
  rw [← hsplitkvs, insertAll_split hA]
  simp only [hc] at hset
  simp only [insertAll, hc, hset, List.cons_append, List.tail_cons]

/-- Witness for C3 at a concrete run: capacity 2, keys 1, 2, 3 inserted in
order; key 1 is evicted and the store ends as the tail of the input. -/
theorem C3_eviction_order_witness :
    insertAll (LRUCache.init Nat Nat 2) [(1, 10), (2, 20), (3, 30)] =
      .ok ⟨[(2, 20), (3, 30)], 2⟩ :=
  C3_eviction_order 2 (by decide) [(1, 10), (2, 20), (3, 30)] (by decide)
    (by decide)

/-- C4: for capacity C ≥ 2 (the inserted batch is `q1 :: q2 :: qs`, so
C = |qs| + 2), after filling the empty store to capacity, a `cache_get` on
the first key, and a `cache_set` of a fresh key `p`, the evicted entry is
`q2` (absent from the final store) while `q1` remains present; the final
store is exactly `qs ++ [q1] ++ [p]` in recency order. -/
theorem C4_recency_refresh {K V : Type} [DecidableEq K] (C : Nat)
    (q1 q2 : K × V) (qs : List (K × V)) (p : K × V)
    (hC : C = qs.length + 2)
    (hnd : ((q1 :: q2 :: qs).map Prod.fst).Nodup)
    (hp : p.1 ∉ (q1 :: q2 :: qs).map Prod.fst) :
    ∃ c2 c3,
      insertAll (LRUCache.init K V C) (q1 :: q2 :: qs) =
        .ok ⟨q1 :: q2 :: qs, C⟩ ∧
      (⟨q1 :: q2 :: qs, C⟩ : LRUCache K V).cache_get q1.1 = (some q1.2, c2) ∧
      c2.cache_set p.1 p.2 = .ok c3 ∧
      c3.cache = (qs ++ [q1]) ++ [p] ∧
      q1.1 ∈ keysOf c3 ∧ q2.1 ∉ keysOf c3 := by
  have hnd0 := hnd
  obtain ⟨k1, v1⟩ := q1
  obtain ⟨k2, v2⟩ := q2
  obtain ⟨pk, pv⟩ := p
  simp only [List.map_cons, List.nodup_cons, List.mem_cons, not_or] at hnd hp
  obtain ⟨⟨h12, h1qs⟩, h2qs, hqsnd⟩ := hnd
  obtain ⟨hpk1, hpk2, hpqs⟩ := hp
  have h1 : insertAll (LRUCache.init K V C) ((k1, v1) :: (k2, v2) :: qs) =
      .ok ⟨(k1, v1) :: (k2, v2) :: qs, C⟩ := by
    have := @insertAll_fresh K V _ ((k1, v1) :: (k2, v2) :: qs)
      (LRUCache.init K V C) hnd0
      (by intro k _; simp [keysOf_eq, LRUCache.init])
      (by simp [LRUCache.init]; omega)
    simpa [LRUCache.init] using this
  have h2 : (⟨(k1, v1) :: (k2, v2) :: qs, C⟩ : LRUCache K V).cache_get k1 =
      (some v1, ⟨(k2, v2) :: (qs ++ [(k1, v1)]), C⟩) := by
    simp [LRUCache.cache_get, odPop]
  have hmem3 : pk ∉ keysOf (⟨(k2, v2) :: (qs ++ [(k1, v1)]), C⟩ : LRUCache K V) := by
    rw [keysOf_eq]
    simp only [List.map_cons, List.map_append, List.map_cons, List.map_nil,
      List.mem_cons, List.mem_append, List.mem_singleton, not_or]
    exact ⟨hpk2, hpqs, hpk1, List.not_mem_nil pk⟩
  have hlen3 : C ≤ ((k2, v2) :: (qs ++ [(k1, v1)])).length := by
    simp
    omega
  have h3 := cache_set_fresh_full
    (c := ⟨(k2, v2) :: (qs ++ [(k1, v1)]), C⟩) hmem3 hlen3 rfl pv
  refine ⟨⟨(k2, v2) :: (qs ++ [(k1, v1)]), C⟩,
    ⟨(qs ++ [(k1, v1)]) ++ [(pk, pv)], C⟩, h1, h2, h3, rfl, ?_, ?_⟩
  · rw [keysOf_eq]
    simp
  · rw [keysOf_eq]
    simp only [List.map_append, List.map_cons, List.map_nil, List.mem_append,
      List.mem_singleton, not_or]
    exact ⟨⟨h2qs, fun h => h12 h.symm⟩, fun h => hpk2 h.symm⟩

/-- Witness for C4 at a concrete run: capacity 2, insert keys 1 and 2, get
key 1, insert key 3; key 2 is evicted, key 1 survives. -/
theorem C4_recency_refresh_witness :
    ∃ c2 c3,
      insertAll (LRUCache.init Nat Nat 2) [(1, 10), (2, 20)] =
        .ok ⟨[(1, 10), (2, 20)], 2⟩ ∧
      (⟨[(1, 10), (2, 20)], 2⟩ : LRUCache Nat Nat).cache_get 1 =
        (some 10, c2) ∧
      c2.cache_set 3 30 = .ok c3 ∧
      c3.cache = ([] ++ [(1, 10)]) ++ [(3, 30)] ∧
      1 ∈ keysOf c3 ∧ 2 ∉ keysOf c3 :=
  C4_recency_refresh 2 (1, 10) (2, 20) [] (3, 30) (by decide) (by decide)
    (by decide)

/-- C10: an LRUCache constructed with maxsize = 0 raises an unhandled
KeyError (modelled `.error ()`) on any `cache_set` — `popitem` on the empty
OrderedDict — whereas with maxsize ≥ 1 every `cache_set` completes without
error from any reachable or unreachable store state. -/
theorem C10_maxsize_zero {K V : Type} [DecidableEq K] :
    (∀ (k : K) (v : V), (LRUCache.init K V 0).cache_set k v = .error ()) ∧
    (∀ (c : LRUCache K V) (k : K) (v : V), 1 ≤ c.maxsize →
      ∃ c2, c.cache_set k v = .ok c2) := by
  constructor
  · intro k v
    rfl
  · intro c k v hms
    exact cache_set_total k v hms

section SplitFillLemmas

variable {K V I : Type} [DecidableEq K] {ser : I → K} {Ek : K → V}

theorem splitPhase_spec (xs : List I) {c : LRUCache K V} {idx : Nat}
    {o : SplitOut K V I} (hcoh : Coherent Ek c)
    (heq : splitPhase ser c idx xs = o) :
    Coherent Ek o.cache ∧
    o.results.length = xs.length ∧
    o.indices.length = o.uncached.length ∧
    (∀ (j i : Nat), o.indices[j]? = some i →
      ∃ (m : Nat) (x : I), i = idx + m ∧ xs[m]? = some x ∧
        o.uncached[j]? = some x ∧ o.results[m]? = some none) ∧
    (∀ (m : Nat), o.results[m]? = some none → (idx + m) ∈ o.indices) ∧
    (∀ (m : Nat) (v : V), o.results[m]? = some (some v) →
      ∃ (x : I), xs[m]? = some x ∧ v = Ek (ser x)) := by
  induction xs generalizing c idx o with
  | nil =>
    rw [splitPhase] at heq
    subst heq
    refine ⟨hcoh, rfl, rfl, ?_, ?_, ?_⟩
    · intro j i hji
      simp at hji
    · intro m hm
      simp at hm
    · intro m v hm
      simp at hm
  | cons x xs ih =>
    rcases hget : c.cache_get (ser x) with ⟨r, c1⟩
    cases r with
    | some v =>
      simp only [splitPhase, hget] at heq
      subst heq
      have hc1 : (c.cache_get (ser x)).2 = c1 := by rw [hget]
      have hcoh1 : Coherent Ek c1 := hc1 ▸ cache_get_coherent (ser x) hcoh
      have hv : v = Ek (ser x) :=
        cache_get_some_coherent hcoh (by rw [hget])
      obtain ⟨ih1, ih2, ih3, ih4, ih5, ih6⟩ :=
        @ih c1 (idx + 1) _ hcoh1 rfl
      refine ⟨ih1, by simp [ih2], ih3, ?_, ?_, ?_⟩
      · intro j i hji
        obtain ⟨m, x0, hi, hxm, hu, hr⟩ := ih4 j i hji
        exact ⟨m + 1, x0, by omega, by simpa using hxm, hu, by simpa using hr⟩
      · intro m hm
        cases m with
        | zero => simp at hm
        | succ m =>
          have h0 := ih5 m (by simpa using hm)
          have h2 : idx + (m + 1) = idx + 1 + m := by omega
          rw [h2]
          exact h0
      · intro m v0 hm
        cases m with
        | zero =>
          simp only [List.getElem?_cons_zero, Option.some.injEq] at hm
          refine ⟨x, by simp, ?_⟩
          rw [← hm, hv]
        | succ m =>
          obtain ⟨x0, hx, hv0⟩ := ih6 m v0 (by simpa using hm)
          exact ⟨x0, by simpa using hx, hv0⟩
    | none =>
      simp only [splitPhase, hget] at heq
      subst heq
      obtain ⟨ih1, ih2, ih3, ih4, ih5, ih6⟩ :=
        @ih c (idx + 1) _ hcoh rfl
      refine ⟨ih1, by simp [ih2], by simp [ih3], ?_, ?_, ?_⟩
      · intro j i hji
        cases j with
        | zero =>
          simp only [List.getElem?_cons_zero, Option.some.injEq] at hji
          exact ⟨0, x, by omega, by simp, by simp, by simp⟩
        | succ j =>
          obtain ⟨m, x0, hi, hxm, hu, hr⟩ := ih4 j i (by simpa using hji)
          exact ⟨m + 1, x0, by omega, by simpa using hxm, by simpa using hu,
            by simpa using hr⟩
      · intro m hm
        cases m with
        | zero => simp
        | succ m =>
          have h0 := ih5 m (by simpa using hm)
          have h2 : idx + (m + 1) = idx + 1 + m := by omega
          rw [h2]
          exact List.mem_cons_of_mem _ h0
      · intro m v0 hm
        cases m with
        | zero => simp at hm
        | succ m =>
          obtain ⟨x0, hx, hv0⟩ := ih6 m v0 (by simpa using hm)
          exact ⟨x0, by simpa using hx, hv0⟩

theorem fillPhase_spec (uis : List Nat) (uts : List I) (items : List I)
    {c : LRUCache K V} (res : List (Option V))
    (hcoh : Coherent Ek c) (hms : 1 ≤ c.maxsize)
    (hlen : uis.length = uts.length)
    (hpair : ∀ (j i : Nat), uis[j]? = some i →
      ∃ (x : I), items[i]? = some x ∧ uts[j]? = some x)
    (hbound : ∀ i ∈ uis, i < res.length) :
    ∃ c2 res2,
      fillPhase ser items c res uis (uts.map (fun t => Ek (ser t))) =
        .ok (c2, res2) ∧
      res2.length = res.length ∧ Coherent Ek c2 ∧ c2.maxsize = c.maxsize ∧
      (∀ (m : Nat), m ∉ uis → res2[m]? = res[m]?) ∧
      (∀ (m : Nat), m ∈ uis →
        ∃ (x : I), items[m]? = some x ∧
          res2[m]? = some (some (Ek (ser x)))) := by
  induction uis generalizing uts c res with
  | nil =>
    exact ⟨c, res, rfl, rfl, hcoh, rfl, fun m _ => rfl,
      fun m hm => absurd hm (List.not_mem_nil m)⟩
  | cons i uis ih =>
    cases uts with
    | nil => simp at hlen
    | cons t uts =>
      obtain ⟨x0, hx, ht⟩ := hpair 0 i (by simp)
      rw [List.getElem?_cons_zero, Option.some.injEq] at ht
      subst ht
      obtain ⟨c1, hset⟩ := cache_set_total (ser t) (Ek (ser t)) hms
      have hstep : fillPhase ser items c res (i :: uis)
          ((t :: uts).map (fun s => Ek (ser s))) =
          fillPhase ser items c1 (res.set i (some (Ek (ser t)))) uis
            (uts.map (fun s => Ek (ser s))) := by
        simp only [List.map_cons, fillPhase, hx, hset]
      have hcoh1 : Coherent Ek c1 := cache_set_coherent hcoh hset
      have hms1 : 1 ≤ c1.maxsize := by
        rw [cache_set_maxsize hset]
        exact hms
      obtain ⟨c2, res2, hfill, hlen2, hcoh2, hmsz2, hnot, hmem⟩ :=
        ih uts (c := c1) (res.set i (some (Ek (ser t)))) hcoh1 hms1
          (by simpa using hlen)
          (fun j i0 hj => by
            obtain ⟨x1, h1, h2⟩ := hpair (j + 1) i0 (by simpa using hj)
            exact ⟨x1, h1, by simpa using h2⟩)
          (fun i0 hi0 => by
            rw [List.length_set]
            exact hbound i0 (List.mem_cons_of_mem _ hi0))
      refine ⟨c2, res2, ?_, ?_, hcoh2, ?_, ?_, ?_⟩
      · rw [hstep]
        exact hfill
      · rw [hlen2, List.length_set]
      · rw [hmsz2, cache_set_maxsize hset]
      · intro m hm
        simp only [List.mem_cons, not_or] at hm
        rw [hnot m hm.2, List.getElem?_set_ne (fun h => hm.1 h.symm)]
      · intro m hm
        rcases List.mem_cons.mp hm with heqm | hm2
        · subst heqm
          by_cases hmm : m ∈ uis
          · exact hmem m hmm
          · refine ⟨t, hx, ?_⟩
            rw [hnot m hmm, List.getElem?_set_self (hbound m (by simp))]
        · exact hmem m hm2

theorem splitPhase_cache_perm (xs : List I) (c : LRUCache K V) (idx : Nat) :
    (splitPhase ser c idx xs).cache.cache.Perm c.cache ∧
    (splitPhase ser c idx xs).cache.maxsize = c.maxsize := by
  induction xs generalizing c idx with
  | nil => exact ⟨List.Perm.refl _, rfl⟩
  | cons x xs ih =>
    rcases hget : c.cache_get (ser x) with ⟨r, c1⟩
    cases r with
    | some v =>
      have hp := cache_get_snd_perm c (ser x)
      have hm := cache_get_snd_maxsize c (ser x)
      rw [hget] at hp hm
      constructor
      · simp only [splitPhase, hget]
        exact (ih c1 (idx + 1)).1.trans hp
      · simp only [splitPhase, hget]
        rw [(ih c1 (idx + 1)).2, hm]
    | none =>
      constructor
      · simp only [splitPhase, hget]
        exact (ih c (idx + 1)).1
      · simp only [splitPhase, hget]
        exact (ih c (idx + 1)).2

theorem batchedEmbedding_coherent_spec (ser : I → K) (Ek : K → V) (c : LRUCache K V)
    (items : List I) (hcoh : Coherent Ek c) (hms : 1 ≤ c.maxsize) :
    ∃ c2, batchedEmbedding ser c
        (fun l => .ok (l.map (fun x => Ek (ser x)))) items =
      .ok (c2, items.map (fun x => some (Ek (ser x)))) := by
  obtain ⟨h1, h2, h3, h4, h5, h6⟩ :=
    splitPhase_spec items hcoh
      (rfl : splitPhase ser c 0 items = splitPhase ser c 0 items)
  by_cases hemp : (splitPhase ser c 0 items).uncached.isEmpty = true
  · refine ⟨(splitPhase ser c 0 items).cache, ?_⟩
    have hresults : (splitPhase ser c 0 items).results =
        items.map (fun x => some (Ek (ser x))) := by
      apply List.ext_getElem?
      intro n
      by_cases hn : n < items.length
      · have hn2 : n < (splitPhase ser c 0 items).results.length := by
          rw [h2]
          exact hn
        have hw : (splitPhase ser c 0 items).results[n]? =
            some (splitPhase ser c 0 items).results[n] :=
          List.getElem?_eq_getElem hn2
        cases hv : (splitPhase ser c 0 items).results[n] with
        | none =>
          exfalso
          rw [hv] at hw
          have hmem := h5 n hw
          rw [List.isEmpty_iff] at hemp
          have : (splitPhase ser c 0 items).indices.length = 0 := by
            rw [h3, hemp]
            rfl
          rw [List.length_eq_zero] at this
          rw [this] at hmem
          exact List.not_mem_nil _ hmem
        | some v =>
          rw [hv] at hw
          obtain ⟨x, hx, hvx⟩ := h6 n v hw
          rw [hw, List.getElem?_map, hx, hvx]
          rfl
      · rw [List.getElem?_eq_none (by rw [h2]; omega),
          List.getElem?_eq_none (by rw [List.length_map]; omega)]
    simp only [batchedEmbedding, hemp, if_true]
    rw [hresults]
  · rw [Bool.not_eq_true] at hemp
    have hms2 : 1 ≤ (splitPhase ser c 0 items).cache.maxsize := by
      rw [(splitPhase_cache_perm items c 0).2]
      exact hms
    obtain ⟨c2, res2, hfill, hlen2, hcoh2, hmsz2, hnot, hmem⟩ :=
      fillPhase_spec (splitPhase ser c 0 items).indices
        (splitPhase ser c 0 items).uncached items
        (splitPhase ser c 0 items).results h1 hms2 h3
        (fun j i hj => by
          obtain ⟨m, x, him, hxm, hu, _⟩ := h4 j i hj
          have him2 : i = m := by omega
          subst him2
          exact ⟨x, hxm, hu⟩)
        (fun i hi => by
          obtain ⟨j, hjlt, hja⟩ := List.getElem_of_mem hi
          have hj : (splitPhase ser c 0 items).indices[j]? = some i := by
            rw [List.getElem?_eq_getElem hjlt, hja]
          obtain ⟨m, x, him, hxm, hu, hr⟩ := h4 j i hj
          have him2 : i = m := by omega
          subst him2
          obtain ⟨hlt, _⟩ := List.getElem?_eq_some_iff.mp hr
          exact hlt)
    refine ⟨c2, ?_⟩
    have hres2 : res2 = items.map (fun x => some (Ek (ser x))) := by
      apply List.ext_getElem?
      intro n
      by_cases hn : n < items.length
      · by_cases hmemuis : n ∈ (splitPhase ser c 0 items).indices
        · obtain ⟨x, hx, hr2⟩ := hmem n hmemuis
          rw [hr2, List.getElem?_map, hx]
          rfl
        · rw [hnot n hmemuis]
          have hn2 : n < (splitPhase ser c 0 items).results.length := by
            rw [h2]
            exact hn
          have hw : (splitPhase ser c 0 items).results[n]? =
              some (splitPhase ser c 0 items).results[n] :=
            List.getElem?_eq_getElem hn2
          cases hv : (splitPhase ser c 0 items).results[n] with
          | none =>
            exfalso
            rw [hv] at hw
            have := h5 n hw
            simp only [Nat.zero_add] at this
            exact hmemuis this
          | some v =>
            rw [hv] at hw
            obtain ⟨x, hx, hvx⟩ := h6 n v hw
            rw [hw, List.getElem?_map, hx, hvx]
            rfl
      · rw [List.getElem?_eq_none (by rw [hlen2, h2]; omega),
          List.getElem?_eq_none (by rw [List.length_map]; omega)]
    simp only [batchedEmbedding, hemp, Bool.false_eq_true, if_false]
    rw [← hres2]
    exact hfill

theorem batchedEmbedding_error_spec (c : LRUCache K V)
    (embed : List I → Except Unit (List V)) (items : List I)
    (hne : (splitPhase ser c 0 items).uncached ≠ [])
    (herr : embed ((splitPhase ser c 0 items).uncached) = .error ()) :
    batchedEmbedding ser c embed items = .error () ∧
    (splitPhase ser c 0 items).cache.cache.Perm c.cache ∧
    (splitPhase ser c 0 items).cache.maxsize = c.maxsize := by
  refine ⟨?_, (splitPhase_cache_perm items c 0).1,
    (splitPhase_cache_perm items c 0).2⟩
  have hemp : (splitPhase ser c 0 items).uncached.isEmpty = false :=
    List.isEmpty_eq_false.mpr hne
  simp only [batchedEmbedding, hemp, Bool.false_eq_true, if_false, herr]

theorem batchedEmbedding_single_roundtrip (ser : I → K)
    {c c1 : LRUCache K V} {embed : List I → Except Unit (List V)} {x : I}
    {res1 : List (Option V)} (hnd : KeysNodup c)
    (h : batchedEmbedding ser c embed [x] = .ok (c1, res1)) :
    (splitPhase ser c1 0 [x]).uncached = [] ∧
    ∀ embed2, batchedEmbedding ser c1 embed2 [x] =
      .ok ((c1.cache_get (ser x)).2, res1) := by
  have hfin : ∀ v : V, (ser x, v) ∈ c1.cache → KeysNodup c1 →
      res1 = [some v] →
      (splitPhase ser c1 0 [x]).uncached = [] ∧
      ∀ embed2, batchedEmbedding ser c1 embed2 [x] =
        .ok ((c1.cache_get (ser x)).2, res1) := by
    intro v hmem hnd1 hres
    have h1 : (c1.cache_get (ser x)).1 = some v := cache_get_mem_nodup hmem hnd1
    rcases hget2 : c1.cache_get (ser x) with ⟨r2, cg2⟩
    rw [hget2] at h1
    simp only at h1
    subst h1
    have hsplit2 : splitPhase ser c1 0 [x] = ⟨cg2, [some v], [], []⟩ := by
      simp only [splitPhase, hget2]
    refine ⟨by rw [hsplit2], ?_⟩
    intro embed2
    rw [hres]
    simp only [batchedEmbedding, hsplit2, List.isEmpty_nil, if_true]
  rcases hget : c.cache_get (ser x) with ⟨r, cg⟩
  cases r with
  | some v =>
    have hsplit1 : splitPhase ser c 0 [x] = ⟨cg, [some v], [], []⟩ := by
      simp only [splitPhase, hget]
    have hcomp : batchedEmbedding ser c embed [x] = .ok (cg, [some v]) := by
      simp only [batchedEmbedding, hsplit1, List.isEmpty_nil, if_true]
    rw [hcomp, Except.ok.injEq, Prod.mk.injEq] at h
    obtain ⟨hc1, hres⟩ := h
    subst hc1
    have hmemc : (ser x, v) ∈ c.cache := cache_get_fst_some (by rw [hget])
    have hperm : cg.cache.Perm c.cache := by
      have hp := cache_get_snd_perm c (ser x)
      rw [hget] at hp
      exact hp
    have hnd1 : KeysNodup cg := by
      have hn := cache_get_keysNodup (c := c) (ser x) hnd
      rw [hget] at hn
      exact hn
    exact hfin v (hperm.mem_iff.mpr hmemc) hnd1 hres.symm
  | none =>
    have hsplit1 : splitPhase ser c 0 [x] = ⟨c, [none], [x], [0]⟩ := by
      simp only [splitPhase, hget]
    have hcomp := h
    simp only [batchedEmbedding, hsplit1, List.isEmpty_cons,
      Bool.false_eq_true, if_false] at hcomp
    cases hem : embed [x] with
    | error e =>
      simp only [hem] at hcomp
      exact Except.noConfusion hcomp
    | ok features =>
      simp only [hem] at hcomp
      cases features with
      | nil => simp [fillPhase] at hcomp
      | cons f fs =>
        simp only [fillPhase, List.getElem?_cons_zero] at hcomp
        cases hset : c.cache_set (ser x) f with
        | error e =>
          simp only [hset] at hcomp
          exact Except.noConfusion hcomp
        | ok c1x =>
          simp only [hset, fillPhase, List.set_cons_zero] at hcomp
          rw [Except.ok.injEq, Prod.mk.injEq] at hcomp
          obtain ⟨hc1, hres⟩ := hcomp
          subst hc1
          exact hfin f (cache_set_mem hset) (cache_set_keysNodup hnd hset)
            hres.symm

end SplitFillLemmas

/-- C5: submitting the same single item in two consecutive single-item
batches yields identical result values on both calls, and the second call
classifies the item as a hit — its miss list is empty, so the compute branch
is skipped and the external computation is never invoked (the second call's
result does not depend on the computation function at all).  Holds for
`batched_text_embedding` and for `batched_image_embedding`. -/
theorem C5_idempotence :
    (∀ (K V : Type) [DecidableEq K] (c c1 : LRUCache K V)
      (embed : List K → Except Unit (List V)) (t : K)
      (res1 : List (Option V)), KeysNodup c →
      batched_text_embedding c embed [t] = .ok (c1, res1) →
      (splitPhase (fun s => s) c1 0 [t]).uncached = [] ∧
      ∀ embed2, batched_text_embedding c1 embed2 [t] =
        .ok ((c1.cache_get t).2, res1)) ∧
    (∀ (K V I : Type) [DecidableEq K] (serialize_image : I → K)
      (c c1 : LRUCache K V) (embed : List I → Except Unit (List V)) (img : I)
      (res1 : List (Option V)), KeysNodup c →
      batched_image_embedding serialize_image c embed [img] = .ok (c1, res1) →
      (splitPhase serialize_image c1 0 [img]).uncached = [] ∧
      ∀ embed2, batched_image_embedding serialize_image c1 embed2 [img] =
        .ok ((c1.cache_get (serialize_image img)).2, res1)) := by
  constructor
  · intro K V _ c c1 embed t res1 hnd h
    exact batchedEmbedding_single_roundtrip (fun s => s) hnd h
  · intro K V I _ serialize_image c c1 embed img res1 hnd h
    exact batchedEmbedding_single_roundtrip serialize_image hnd h

/-- Witness for C5 at concrete inputs: a first call on a singleton batch
against an empty cache computes and caches the value; the second call is a
pure cache hit with the same output, whatever the computation function. -/
theorem C5_idempotence_witness :
    ((splitPhase (fun s => s) (⟨[(5, 42)], 1⟩ : LRUCache Nat Nat) 0
        [5]).uncached = [] ∧
      ∀ embed2, batched_text_embedding (⟨[(5, 42)], 1⟩ : LRUCache Nat Nat)
        embed2 [5] =
        .ok (((⟨[(5, 42)], 1⟩ : LRUCache Nat Nat).cache_get 5).2,
          [some 42])) ∧
    ((splitPhase (fun i => i + 1) (⟨[(8, 33)], 1⟩ : LRUCache Nat Nat) 0
        [7]).uncached = [] ∧
      ∀ embed2, batched_image_embedding (fun i => i + 1)
        (⟨[(8, 33)], 1⟩ : LRUCache Nat Nat) embed2 [7] =
        .ok (((⟨[(8, 33)], 1⟩ : LRUCache Nat Nat).cache_get 8).2,
          [some 33])) :=
  ⟨C5_idempotence.1 Nat Nat ⟨[], 1⟩ ⟨[(5, 42)], 1⟩ (fun _ => .ok [42]) 5
      [some 42] List.nodup_nil (by rfl),
   C5_idempotence.2 Nat Nat Nat (fun i => i + 1) ⟨[], 1⟩ ⟨[(8, 33)], 1⟩
      (fun _ => .ok [33]) 7 [some 33] List.nodup_nil (by rfl)⟩

/-- C6: with a text cache of capacity 2 preloaded with "a" ↦ [1], the batch
["a", "b", "a"] classifies exactly ["b"] as the miss sub-batch (so the
external computation is invoked exactly once, on ["b"]), and — writing vb
for the computed value — returns the output [[1], vb, [1]] and leaves the
cache holding exactly "a" ↦ [1] (recency-refreshed, oldest) and "b" ↦ vb. -/
theorem C6_partial_hit_batch (vb : List ℚ)
    (embed : List String → Except Unit (List (List ℚ)))
    (hemb : embed ["b"] = .ok [vb]) :
    (splitPhase (fun s => s) (⟨[("a", [1])], 2⟩ : LRUCache String (List ℚ))
        0 ["a", "b", "a"]).uncached = ["b"] ∧
    batched_text_embedding (⟨[("a", [1])], 2⟩ : LRUCache String (List ℚ))
      embed ["a", "b", "a"] =
      .ok (⟨[("a", [1]), ("b", vb)], 2⟩, [some [1], some vb, some [1]]) := by
  have hsplit : splitPhase (fun s => s)
      (⟨[("a", [1])], 2⟩ : LRUCache String (List ℚ)) 0 ["a", "b", "a"] =
      ⟨⟨[("a", [1])], 2⟩, [some [1], none, some [1]], ["b"], [1]⟩ := by
    simp [splitPhase, LRUCache.cache_get, odPop]
  refine ⟨by rw [hsplit], ?_⟩
  have hset : (⟨[("a", [1])], 2⟩ : LRUCache String (List ℚ)).cache_set "b" vb =
      .ok ⟨[("a", [1]), ("b", vb)], 2⟩ :=
    cache_set_fresh_room (by decide) (by decide) vb
  simp only [batched_text_embedding, batchedEmbedding, hsplit,
    List.isEmpty_cons, Bool.false_eq_true, if_false, hemb, fillPhase,
    List.getElem?_cons_succ, List.getElem?_cons_zero, hset,
    List.set_cons_succ, List.set_cons_zero]

/-- Witness for C6 at a concrete computed value vb = [2]. -/
theorem C6_partial_hit_batch_witness :
    (splitPhase (fun s => s) (⟨[("a", [1])], 2⟩ : LRUCache String (List ℚ))
        0 ["a", "b", "a"]).uncached = ["b"] ∧
    batched_text_embedding (⟨[("a", [1])], 2⟩ : LRUCache String (List ℚ))
      (fun _ => .ok [[2]]) ["a", "b", "a"] =
      .ok (⟨[("a", [1]), ("b", [2])], 2⟩,
        [some [1], some [2], some [1]]) :=
  C6_partial_hit_batch [2] (fun _ => .ok [[2]]) rfl

/-- C7: with capacity 10 and an empty cache, the batch ["x", "x"] classifies
both occurrences as misses (the external computation runs on ["x", "x"]);
assuming the computation is deterministic — it returns the same value v for
both copies — the output is [v, v] with equal values in both slots and the
final cache holds exactly one entry for "x". -/
theorem C7_duplicate_miss (v : List ℚ)
    (embed : List String → Except Unit (List (List ℚ)))
    (hemb : embed ["x", "x"] = .ok [v, v]) :
    (splitPhase (fun s => s) (LRUCache.init String (List ℚ) 10) 0
        ["x", "x"]).uncached = ["x", "x"] ∧
    batched_text_embedding (LRUCache.init String (List ℚ) 10) embed
      ["x", "x"] = .ok (⟨[("x", v)], 10⟩, [some v, some v]) := by
  have hsplit : splitPhase (fun s => s) (LRUCache.init String (List ℚ) 10) 0
      ["x", "x"] =
      ⟨LRUCache.init String (List ℚ) 10, [none, none], ["x", "x"], [0, 1]⟩ := by
    simp [splitPhase, LRUCache.cache_get, odPop, LRUCache.init]
  refine ⟨by rw [hsplit], ?_⟩
  have hset1 : (LRUCache.init String (List ℚ) 10).cache_set "x" v =
      .ok ⟨[("x", v)], 10⟩ :=
    cache_set_fresh_room (by decide) (by decide) v
  have hpop : odPop (⟨[("x", v)], 10⟩ : LRUCache String (List ℚ)).cache "x" =
      (some v, []) := by
    simp [odPop]
  have hset2 : (⟨[("x", v)], 10⟩ : LRUCache String (List ℚ)).cache_set "x" v =
      .ok ⟨[("x", v)], 10⟩ :=
    cache_set_hit hpop v
  simp only [batched_text_embedding, batchedEmbedding, hsplit,
    List.isEmpty_cons, Bool.false_eq_true, if_false, hemb, fillPhase,
    List.getElem?_cons_succ, List.getElem?_cons_zero, hset1, hset2,
    List.set_cons_succ, List.set_cons_zero]

/-- Witness for C7 at a concrete computed value v = [3]. -/
theorem C7_duplicate_miss_witness :
    (splitPhase (fun s => s) (LRUCache.init String (List ℚ) 10) 0
        ["x", "x"]).uncached = ["x", "x"] ∧
    batched_text_embedding (LRUCache.init String (List ℚ) 10)
      (fun _ => .ok [[3], [3]]) ["x", "x"] =
      .ok (⟨[("x", [3])], 10⟩, [some [3], some [3]]) :=
  C7_duplicate_miss [3] (fun _ => .ok [[3], [3]]) rfl

/-- C8 counterexample: the claim "a computed-miss list whose length differs
from the miss-index list aborts the request and is never silently returned"
fails on the surplus side: here the batch ["x"] has exactly one miss, the
computation returns two values, and the call succeeds silently, using the
first value and discarding the second. -/
theorem C8_counterexample :
    (splitPhase (fun s => s) (LRUCache.init String (List ℚ) 10) 0
        ["x"]).uncached.length = 1 ∧
    ((2 : Nat) ≠ 1) ∧
    batched_text_embedding (LRUCache.init String (List ℚ) 10)
      (fun _ => .ok [[1], [2]]) ["x"] =
      .ok (⟨[("x", [1])], 10⟩, [some [1]]) := by
  refine ⟨by decide, by decide, ?_⟩
  rfl

/-- C8 amended: if the computed miss list is shorter than the miss index
list, the assembly loop aborts the request with an error (the `IndexError`
of `features[i]`) and never returns an output; but if it is longer, the
surplus computed values are silently ignored — assembly behaves exactly as
on the list truncated to the miss count — and the request completes. -/
theorem C8_amended_length_mismatch :
    (∀ (K V I : Type) [DecidableEq K] (ser : I → K) (items : List I)
      (c : LRUCache K V) (res : List (Option V)) (uis : List Nat)
      (features : List V), features.length < uis.length →
      fillPhase ser items c res uis features = .error ()) ∧
    (∀ (K V I : Type) [DecidableEq K] (ser : I → K) (items : List I)
      (c : LRUCache K V) (res : List (Option V)) (uis : List Nat)
      (features : List V),
      fillPhase ser items c res uis features =
        fillPhase ser items c res uis (features.take uis.length)) := by
  constructor
  · intro K V I _ ser items c res uis features hlt
    induction uis generalizing features c res with
    | nil => simp at hlt
    | cons i uis ih =>
      cases features with
      | nil => rfl
      | cons f fs =>
        simp only [List.length_cons] at hlt
        cases hx : items[i]? with
        | none => simp only [fillPhase, hx]
        | some x =>
          cases hset : c.cache_set (ser x) f with
          | error e => simp only [fillPhase, hx, hset]
          | ok c1 =>
            simp only [fillPhase, hx, hset]
            exact ih _ _ _ (by omega)
  · intro K V I _ ser items c res uis features
    induction uis generalizing features c res with
    | nil => rfl
    | cons i uis ih =>
      cases features with
      | nil => rfl
      | cons f fs =>
        simp only [List.length_cons, List.take_succ_cons]
        cases hx : items[i]? with
        | none => simp only [fillPhase, hx]
        | some x =>
          cases hset : c.cache_set (ser x) f with
          | error e => simp only [fillPhase, hx, hset]
          | ok c1 =>
            simp only [fillPhase, hx, hset]
            exact ih _ _ _

/-- Witness for the amended C8 at concrete inputs: an empty computed list
against one miss index errors; a surplus list behaves as its one-element
truncation. -/
theorem C8_amended_length_mismatch_witness :
    fillPhase (fun s => s) ["x"] (LRUCache.init String (List ℚ) 10) [none]
      [0] [] = .error () ∧
    fillPhase (fun s => s) ["x"] (LRUCache.init String (List ℚ) 10) [none]
      [0] [[1], [2]] =
      fillPhase (fun s => s) ["x"] (LRUCache.init String (List ℚ) 10) [none]
        [0] ([[1], [2]].take 1) :=
  ⟨C8_amended_length_mismatch.1 String (List ℚ) String (fun s => s) ["x"]
      (LRUCache.init String (List ℚ) 10) [none] [0] [] (by decide),
   C8_amended_length_mismatch.2 String (List ℚ) String (fun s => s) ["x"]
      (LRUCache.init String (List ℚ) 10) [none] [0] [[1], [2]]⟩

/-- C1: for every input batch of N items, `batched_text_embedding` returns
(on success) an embedding list of length exactly N whose slot i holds the
embedding of input item i — the value of the deterministic embedding
function `Ek` at that item — for every hit/miss pattern of the cache (any
starting cache coherent with `Ek`, capacity ≥ 1); the same holds for
`batched_image_embedding` over image items with keys derived by
`serialize_image`. -/
theorem C1_order_preservation :
    (∀ (K V : Type) [DecidableEq K] (Ek : K → V) (c : LRUCache K V)
      (text : List K), Coherent Ek c → 1 ≤ c.maxsize →
      ∃ c2, batched_text_embedding c (fun l => .ok (l.map Ek)) text =
        .ok (c2, text.map (fun t => some (Ek t)))) ∧
    (∀ (K V I : Type) [DecidableEq K] (Ek : K → V) (serialize_image : I → K)
      (c : LRUCache K V) (image : List I), Coherent Ek c → 1 ≤ c.maxsize →
      ∃ c2, batched_image_embedding serialize_image c
          (fun l => .ok (l.map (fun x => Ek (serialize_image x)))) image =
        .ok (c2, image.map (fun x => some (Ek (serialize_image x))))) := by
  constructor
  · intro K V _ Ek c text hcoh hms
    exact batchedEmbedding_coherent_spec (fun t => t) Ek c text hcoh hms
  · intro K V I _ Ek serialize_image c image hcoh hms
    exact batchedEmbedding_coherent_spec serialize_image Ek c image hcoh hms

/-- Witness for C1 at concrete inputs: singleton batches against an empty
cache of capacity 1, for the text and the image entry points. -/
theorem C1_order_preservation_witness :
    (∃ c2, batched_text_embedding (⟨[], 1⟩ : LRUCache Nat Nat)
        (fun l => .ok (l.map (fun _ => 0))) [5] = .ok (c2, [some 0])) ∧
    (∃ c2, batched_image_embedding (fun i => i + 1)
        (⟨[], 1⟩ : LRUCache Nat Nat) (fun l => .ok (l.map (fun _ => 3)))
        [7] = .ok (c2, [some 3])) :=
  ⟨C1_order_preservation.1 Nat Nat (fun _ => 0) ⟨[], 1⟩ [5]
      (fun p hp => absurd hp (List.not_mem_nil p)) (by decide),
   C1_order_preservation.2 Nat Nat Nat (fun _ => 3) (fun i => i + 1) ⟨[], 1⟩
      [7] (fun p hp => absurd hp (List.not_mem_nil p)) (by decide)⟩

/-- C9: if the external embedding computation on the (nonempty) miss subset
fails, the whole batch request fails — `batched_text_embedding` (resp.
`batched_image_embedding`) propagates the error and returns no partial
result — and the cache state left behind (the post-split cache: the only
mutations before the raise are the hits' `cache_get` recency bumps) holds
exactly the same entries as before the call, merely reordered: no cache
entry is created or overwritten for any of the batch's misses, every
`cache_set` of the fill loop running only after a successful computation. -/
theorem C9_compute_failure_no_cache_write :
    (∀ (K V : Type) [DecidableEq K] (c : LRUCache K V)
      (embed : List K → Except Unit (List V)) (text : List K),
      (splitPhase (fun t => t) c 0 text).uncached ≠ [] →
      embed ((splitPhase (fun t => t) c 0 text).uncached) = .error () →
      batched_text_embedding c embed text = .error () ∧
      (splitPhase (fun t => t) c 0 text).cache.cache.Perm c.cache ∧
      (splitPhase (fun t => t) c 0 text).cache.maxsize = c.maxsize) ∧
    (∀ (K V I : Type) [DecidableEq K] (serialize_image : I → K)
      (c : LRUCache K V) (embed : List I → Except Unit (List V))
      (image : List I),
      (splitPhase serialize_image c 0 image).uncached ≠ [] →
      embed ((splitPhase serialize_image c 0 image).uncached) = .error () →
      batched_image_embedding serialize_image c embed image = .error () ∧
      (splitPhase serialize_image c 0 image).cache.cache.Perm c.cache ∧
      (splitPhase serialize_image c 0 image).cache.maxsize = c.maxsize) := by
  constructor
  · intro K V _ c embed text hne herr
    exact batchedEmbedding_error_spec c embed text hne herr
  · intro K V I _ serialize_image c embed image hne herr
    exact batchedEmbedding_error_spec c embed image hne herr

/-- Witness for C9 at concrete inputs: an always-failing computation over a
singleton miss batch, for the text and the image entry points. -/
theorem C9_compute_failure_no_cache_write_witness :
    (batched_text_embedding (⟨[(9, 9)], 2⟩ : LRUCache Nat Nat)
        (fun _ => .error ()) [5] = .error () ∧
      (splitPhase (fun t => t) (⟨[(9, 9)], 2⟩ : LRUCache Nat Nat)
          0 [5]).cache.cache.Perm [(9, 9)] ∧
      (splitPhase (fun t => t) (⟨[(9, 9)], 2⟩ : LRUCache Nat Nat)
          0 [5]).cache.maxsize = 2) ∧
    (batched_image_embedding (fun i => i + 1)
        (⟨[], 1⟩ : LRUCache Nat Nat) (fun _ => .error ()) [7] = .error () ∧
      (splitPhase (fun i => i + 1) (⟨[], 1⟩ : LRUCache Nat Nat)
          0 [7]).cache.cache.Perm [] ∧
      (splitPhase (fun i => i + 1) (⟨[], 1⟩ : LRUCache Nat Nat)
          0 [7]).cache.maxsize = 1) :=
  ⟨C9_compute_failure_no_cache_write.1 Nat Nat ⟨[(9, 9)], 2⟩
      (fun _ => .error ()) [5] (by decide) rfl,
   C9_compute_failure_no_cache_write.2 Nat Nat Nat (fun i => i + 1) ⟨[], 1⟩
      (fun _ => .error ()) [7] (by decide) rfl⟩

/-- Witness for C10 at concrete inputs: maxsize 0 raises on the first
insert; maxsize 1 inserts fine. -/
theorem C10_maxsize_zero_witness :
    (LRUCache.init Nat Nat 0).cache_set 5 7 = .error () ∧
    ∃ c2, (⟨[], 1⟩ : LRUCache Nat Nat).cache_set 5 7 = .ok c2 :=
  ⟨C10_maxsize_zero.1 5 7, C10_maxsize_zero.2 ⟨[], 1⟩ 5 7 (by decide)⟩

end CaptioningEndpoint
